import Mathlib

/-!
# Verification of the hillslope linear-diffusion notebook

Shallow embedding of `geomorphology_exercises/hillslope-diffusion.ipynb`:
a 41×5 raster grid with spacing Δx = 5 m, east/west grid edges closed,
north/south edges open (fixed value), a uniform uplift of
`uplift_rate * dt` added to every core node each step, followed by one
explicit linear-diffusion step, repeated `nt = int(runtime // dt)` times.

The diffusion update itself lives in the external Landlab component
`LinearDiffuser`; it is modelled here from the spec's finite-volume
contract (unit flux `q = -D (z_k - z_i) / Δx` across each face, face
width Δx, `dz/dt = -(net outgoing flux) / Δx²`, closed faces carry zero
flux, non-core nodes are never updated).  All arithmetic is over ℚ.
-/

/-- Number of node rows of the raster grid (41 in the notebook). -/
def nRows : ℕ := 41

/-- Number of node columns of the raster grid (5 in the notebook). -/
def nCols : ℕ := 5

/-- A node is classified closed exactly when it sits on the east or west
grid edge (`set_closed_boundaries_at_grid_edges(True, False, True, False)`:
east and west closed).  Classification depends only on the column. -/
def isClosedNode (c : ℕ) : Bool := c == 0 || c == nCols - 1

/-- Core (interior, non-boundary) nodes: away from all four grid edges. -/
def isCore (r c : ℕ) : Bool :=
  (1 ≤ r && r ≤ nRows - 2) && (1 ≤ c && c ≤ nCols - 2)

/-- Open / fixed-value boundary nodes: north or south edge nodes that are
not on a closed (east/west) edge. -/
def isOpenNode (r c : ℕ) : Bool :=
  (r == 0 || r == nRows - 1) && !(isClosedNode c)

/-- An elevation field: elevation (ℚ, metres) indexed by (row, column). -/
def ElevField : Type := ℕ → ℕ → ℚ

/-- Modelled from the spec: unit sediment flux from node (r,c) towards the
neighbouring node (r',c') across their shared face,
`q = -D (z_k - z_i) / Δx`; a face to a node classified closed carries
zero flux. -/
def unitFlux (Dc dx : ℚ) (z : ElevField) (r c r' c' : ℕ) : ℚ :=
  if isClosedNode c' then 0 else -Dc * (z r' c' - z r c) / dx

/-- Modelled from the spec: total volume flux through the shared face,
unit flux times the face width Δx. -/
def faceQ (Dc dx : ℚ) (z : ElevField) (r c r' c' : ℕ) : ℚ :=
  dx * unitFlux Dc dx z r c r' c'

/-- Modelled from the spec: net outgoing volume flux at node (r,c), summed
over the four lattice faces (north, south, east, west neighbours). -/
def netQ (Dc dx : ℚ) (z : ElevField) (r c : ℕ) : ℚ :=
  faceQ Dc dx z r c (r + 1) c + faceQ Dc dx z r c (r - 1) c +
    faceQ Dc dx z r c r (c + 1) + faceQ Dc dx z r c r (c - 1)

/-- Modelled from the spec: one explicit diffusion step
(`LinearDiffuser.run_one_step(dt)`): every core node moves by
`dt * (-(net outgoing flux) / Δx²)`; boundary nodes (open and closed)
are excluded from the update and keep their elevation. -/
def diffuseStep (Dc dtc dx : ℚ) (z : ElevField) : ElevField := fun r c =>
  if isCore r c then z r c + dtc * (-(netQ Dc dx z r c) / dx ^ 2) else z r c

/-- The uplift half of a loop iteration:
`z[mg.core_nodes] += uplift_rate * dt` — uplift is added to core nodes
only. -/
def upliftStep (U dtc : ℚ) (z : ElevField) : ElevField := fun r c =>
  if isCore r c then z r c + U * dtc else z r c

/-- One full iteration of the time loop: uplift, then diffusion. -/
def fullStep (Dc U dtc dx : ℚ) (z : ElevField) : ElevField :=
  diffuseStep Dc dtc dx (upliftStep U dtc z)

/-- The elevation field after `n` iterations of the time loop, starting
from `init`. -/
def runGen (Dc U dtc dx : ℚ) (init : ElevField) : ℕ → ElevField
  | 0 => init
  | n + 1 => fullStep Dc U dtc dx (runGen Dc U dtc dx init n)

/-! ## Scenario constants of the notebook -/

/-- Grid spacing Δx = 5 m (`RasterModelGrid((41, 5), 5.)`). -/
def dxVal : ℚ := 5

/-- Transport coefficient `D = 0.01` m²/yr. -/
def DVal : ℚ := 1 / 100

/-- `uplift_rate = 0.0001` m/yr. -/
def upliftRateVal : ℚ := 1 / 10000

/-- `runtime = 500000` yr. -/
def runtimeVal : ℚ := 500000

/-- `dt = 0.5 * mg.dx * mg.dx / D` — the stability-bounded time step. -/
def dtVal : ℚ := 1 / 2 * dxVal * dxVal / DVal

/-- `nt = int(runtime // dt)` — floor division. -/
def ntVal : ℕ := (Int.floor (runtimeVal / dtVal)).toNat

/-- `uplift_per_step = uplift_rate * dt`. -/
def upliftPerStepVal : ℚ := upliftRateVal * dtVal

/-- The initial elevation field: `add_zeros('topographic__elevation')`. -/
def initField : ElevField := fun _ _ => 0

/-- The notebook's run: the field after `n` loop iterations. -/
def runScen : ℕ → ElevField :=
  runGen DVal upliftRateVal dtVal dxVal initField

/-- One full scenario loop iteration. -/
def scenStep : ElevField → ElevField :=
  fullStep DVal upliftRateVal dtVal dxVal

/-! ## Analytical steady-state reference -/

/-- `divide_loc = (mg.number_of_node_rows*mg.dx-mg.dx)/2`. -/
def divideLoc : ℚ := ((nRows : ℚ) * dxVal - dxVal) / 2

/-- `half_width = (mg.number_of_node_rows*mg.dx-mg.dx)/2`. -/
def halfWidth : ℚ := ((nRows : ℚ) * dxVal - dxVal) / 2

/-- The analytical steady-state elevation
`zs = (uplift_rate/(2*D)) * (half_width² - (y - divide_loc)²)`. -/
def zsAnalytic (y : ℚ) : ℚ :=
  upliftRateVal / (2 * DVal) * (halfWidth ^ 2 - (y - divideLoc) ^ 2)

/-- `ys = np.arange(mg.number_of_node_rows*mg.dx - mg.dx)`: with
`41 * 5.0 - 5.0 = 200.0` this is the integer positions 0, 1, …, 199. -/
def ysList : List ℕ := List.range 200

/-- The guarded four-neighbour stencil sum `Σ_k (z_k - z_i)`, where a face
to a node classified closed contributes zero. -/
def neighborStencil (z : ElevField) (r c : ℕ) : ℚ :=
  (if isClosedNode c then 0 else z (r + 1) c - z r c) +
    (if isClosedNode c then 0 else z (r - 1) c - z r c) +
    (if isClosedNode (c + 1) then 0 else z r (c + 1) - z r c) +
    (if isClosedNode (c - 1) then 0 else z r (c - 1) - z r c)

/-- A sample elevation field used to instantiate universally quantified
statements at a concrete input. -/
def sampleField : ElevField := fun r c => (r : ℚ) ^ 2 + 3 * c

/-- The state of the uplift/time-loop driver: iteration counter, current
elevation field, and accumulated `time_counter`. -/
structure SimState where
  step : ℕ
  elev : ElevField
  time : ℚ

/-- The state before the loop starts: zero steps, zero elevations,
`time_counter = 0`. -/
def simInit : SimState := ⟨0, initField, 0⟩

/-- One transition of the driver: while fewer than `nt` iterations have
run, perform uplift + diffusion and accumulate `time_counter += dt`;
once `step = nt` the loop has exited and the state no longer changes. -/
def tick (s : SimState) : SimState :=
  if s.step < ntVal then ⟨s.step + 1, scenStep s.elev, s.time + dtVal⟩ else s

/-- The driver state after `k` transitions from the initial state. -/
def simTrace (k : ℕ) : SimState := tick^[k] simInit

/-- Sum of a per-node quantity over all 39 × 3 core nodes (node rows
1 … 39, node columns 1 … 3). -/
def coreSum (g : ElevField) : ℚ :=
  ∑ m ∈ Finset.range 39, (g (m + 1) 1 + g (m + 1) 2 + g (m + 1) 3)

/-- Total uplift volume added to the landscape in one step: 117 core
nodes, each raised by `uplift_per_step` over a cell of area Δx². -/
def totalUpliftInput : ℚ := 117 * upliftPerStepVal * dxVal ^ 2

/-- Total volume flux exiting the core region through the six faces that
connect a core node to an open (north/south) boundary node. -/
def openExitFlux (Dc dx : ℚ) (w : ElevField) : ℚ :=
  faceQ Dc dx w 1 1 0 1 + faceQ Dc dx w 1 2 0 2 + faceQ Dc dx w 1 3 0 3 +
    faceQ Dc dx w 39 1 40 1 + faceQ Dc dx w 39 2 40 2 +
    faceQ Dc dx w 39 3 40 3

/-- Column symmetry: on every row the three non-closed columns carry the
same elevation (the configuration is invariant across the hillslope). -/
def colSym (z : ElevField) : Prop :=
  ∀ r, r < nRows → (z r 1 = z r 2 ∧ z r 3 = z r 2)

/-- The open (north/south) boundary rows hold their prescribed zero
elevation. -/
def openRowsZero (z : ElevField) : Prop :=
  ∀ c, 1 ≤ c → c ≤ 3 → (z 0 c = 0 ∧ z 40 c = 0)

/-- The field is a steady state of the loop: one full iteration (uplift
followed by diffusion) changes no core node. -/
def steadyOnCore (z : ElevField) : Prop :=
  ∀ r, r < nRows → ∀ c, c < nCols →
    (isCore r c = true → scenStep z r c = z r c)

/-- The exact steady state of the discretised run: the parabolic profile
sampled at the node rows, lowered by one uplift increment at core nodes
(the field is observed after the diffusion half of the iteration). -/
def steadyProfileField : ElevField := fun r c =>
  if 1 ≤ c && c ≤ 3 && 1 ≤ r && r ≤ 39 then
    ((r : ℚ) * (40 - (r : ℚ)) - 1) / 8
  else 0

/-! ## C4: stability bound on the time step -/

/-- C4: the configured time step `dt = 0.5·Δx²/D` evaluates to exactly
1250 yr, and the explicit-scheme stability bound `dt ≤ 0.5·Δx²/D` holds
with equality. -/
theorem C4_dt_stability_bound :
    dtVal = 1250 ∧ dtVal ≤ 1 / 2 * dxVal ^ 2 / DVal ∧
      dtVal = 1 / 2 * dxVal ^ 2 / DVal := by
  refine ⟨by norm_num [dtVal, dxVal, DVal], ?_, ?_⟩ <;>
    norm_num [dtVal, dxVal, DVal]

/-! ## Trace invariants of the time-loop driver -/

theorem ntVal_eq : ntVal = 400 := by
  norm_num [ntVal, runtimeVal, dtVal, dxVal, DVal]
  rfl

theorem simTrace_succ (k : ℕ) : simTrace (k + 1) = tick (simTrace k) := by
  simp [simTrace, Function.iterate_succ_apply']

theorem simTrace_spec (k : ℕ) :
    (simTrace k).step = min k ntVal ∧
      (simTrace k).elev = runScen (min k ntVal) ∧
      (simTrace k).time = ((min k ntVal : ℕ) : ℚ) * dtVal := by
  induction k with
  | zero => simp [simTrace, simInit, runScen, runGen]
  | succ k ih =>
    obtain ⟨hs, he, ht⟩ := ih
    rw [simTrace_succ]
    by_cases hk : k < ntVal
    · have hmin : min k ntVal = k := Nat.min_eq_left (Nat.le_of_lt hk)
      have hmin' : min (k + 1) ntVal = k + 1 :=
        Nat.min_eq_left (Nat.succ_le_of_lt hk)
      rw [hmin] at hs he ht
      have htick : tick (simTrace k) =
          ⟨k + 1, scenStep (simTrace k).elev, (simTrace k).time + dtVal⟩ := by
        simp [tick, hs, hk]
      rw [htick, hmin']
      refine ⟨rfl, ?_, ?_⟩
      · show scenStep (simTrace k).elev = runScen (k + 1)
        rw [he]
        rfl
      · show (simTrace k).time + dtVal = ((k + 1 : ℕ) : ℚ) * dtVal
        rw [ht]
        push_cast
        ring
    · have hle : ntVal ≤ k := Nat.le_of_not_lt hk
      have hmin : min k ntVal = ntVal := Nat.min_eq_right hle
      have hmin' : min (k + 1) ntVal = ntVal :=
        Nat.min_eq_right (Nat.le_succ_of_le hle)
      rw [hmin] at hs he ht
      simp only [tick, hs, lt_irrefl, if_neg (by omega : ¬ ntVal < ntVal),
        hmin']
      exact ⟨hs, he, ht⟩

/-! ## C5: iteration count and termination -/

/-- C5: `nt = int(runtime // dt)` evaluates to 400; the driver's step
counter is `min k nt`, so the run is in the RUNNING phase (step = k < nt,
and the next tick genuinely changes the state) for the first nt
transitions, after which it is DONE (step = nt) and every further tick
leaves the state unchanged — termination is purely step-count driven. -/
theorem C5_loop_runs_exactly_nt_steps :
    ntVal = 400 ∧
      (∀ k, (simTrace k).step = min k ntVal) ∧
      (∀ k, k < ntVal → tick (simTrace k) ≠ simTrace k) ∧
      (∀ m, simTrace (ntVal + m) = simTrace ntVal) ∧
      (∀ k, k ≤ ntVal → (simTrace k).elev = runScen k) := by
  refine ⟨ntVal_eq, fun k => (simTrace_spec k).1, ?_, ?_, ?_⟩
  · intro k hk hEq
    have hs := (simTrace_spec k).1
    have hmin : min k ntVal = k := Nat.min_eq_left (Nat.le_of_lt hk)
    have : (tick (simTrace k)).step = (simTrace k).step := by rw [hEq]
    rw [hs, hmin] at this
    simp only [tick, hs, hmin, hk, if_pos] at this
    omega
  · intro m
    induction m with
    | zero => rfl
    | succ m ih =>
      have : ntVal + (m + 1) = (ntVal + m) + 1 := rfl
      rw [this, simTrace_succ, ih]
      have hs := (simTrace_spec ntVal).1
      rw [Nat.min_self] at hs
      simp [tick, hs]
  · intro k hk
    have := (simTrace_spec k).2.1
    rwa [Nat.min_eq_left hk] at this

/-- Witness for C5: at step 0 the loop is still running and the next tick
changes the state. -/
theorem C5_witness : tick (simTrace 0) ≠ simTrace 0 :=
  C5_loop_runs_exactly_nt_steps.2.2.1 0 (by rw [ntVal_eq]; norm_num)

/-! ## C9: accumulated time after the loop -/

/-- C9: after the loop the accumulated `time_counter` equals `nt * dt`,
which for the scenario equals the configured runtime 500000 exactly; in
general, with `nt = floor(runtime / dt)`, the accumulated time `nt * dt`
is at most the configured runtime, strictly less whenever `dt` does not
divide `runtime`. -/
theorem C9_elapsed_time :
    (simTrace ntVal).time = (ntVal : ℚ) * dtVal ∧
      (ntVal : ℚ) * dtVal = runtimeVal ∧ runtimeVal = 500000 ∧
      (∀ R T : ℚ, 0 < T → 0 ≤ R →
        (((Int.floor (R / T)).toNat : ℚ) * T ≤ R ∧
          ((¬ ∃ k : ℤ, R = k * T) →
            ((Int.floor (R / T)).toNat : ℚ) * T < R))) := by
  refine ⟨?_, ?_, rfl, ?_⟩
  · have := (simTrace_spec ntVal).2.2
    rw [Nat.min_self] at this
    exact this
  · rw [ntVal_eq]; norm_num [dtVal, runtimeVal, dxVal, DVal]
  · intro R T hT hR
    have hT0 : T ≠ 0 := ne_of_gt hT
    have hdiv : 0 ≤ R / T := div_nonneg hR (le_of_lt hT)
    have hfl0 : 0 ≤ Int.floor (R / T) := Int.floor_nonneg.mpr hdiv
    have hcast : ((Int.floor (R / T)).toNat : ℚ) = (Int.floor (R / T) : ℚ) := by
      exact_mod_cast Int.toNat_of_nonneg hfl0
    have hle : (Int.floor (R / T) : ℚ) ≤ R / T := Int.floor_le _
    constructor
    · rw [hcast]
      calc (Int.floor (R / T) : ℚ) * T ≤ (R / T) * T :=
            mul_le_mul_of_nonneg_right hle (le_of_lt hT)
        _ = R := div_mul_cancel₀ R hT0
    · intro hnd
      rw [hcast]
      have hne : (Int.floor (R / T) : ℚ) ≠ R / T := by
        intro h
        exact hnd ⟨Int.floor (R / T), by
          rw [h, div_mul_cancel₀ R hT0]⟩
      have hlt : (Int.floor (R / T) : ℚ) < R / T := lt_of_le_of_ne hle hne
      calc (Int.floor (R / T) : ℚ) * T < (R / T) * T :=
            mul_lt_mul_of_pos_right hlt hT
        _ = R := div_mul_cancel₀ R hT0

/-- Witness for C9: with runtime 7 and dt 2, the accumulated time
`floor(7/2) * 2 = 6` is strictly below 7 since 2 does not divide 7. -/
theorem C9_witness : ((Int.floor ((7 : ℚ) / 2)).toNat : ℚ) * 2 < 7 := by
  refine (C9_elapsed_time.2.2.2 7 2 (by norm_num) (by norm_num)).2 ?_
  rintro ⟨k, hk⟩
  have h2 : (2 : ℚ) * k = 7 := by linarith
  have h3 : (2 * k : ℤ) = 7 := by exact_mod_cast h2
  omega

/-! ## C10: sampling positions of the analytical profile -/

set_option maxRecDepth 4000 in
/-- C10: the analytical profile is sampled at `arange(rows·Δx − Δx)`:
200 integer positions 0, 1, …, 199 with unit spacing (independent of the
grid spacing Δx = 5); the last sample y = 199 falls short of the far
open-boundary node row at y = (rows−1)·Δx = 200, and the sample
positions are not the grid's node y-coordinates (e.g. y = 1 is no node's
y-coordinate). -/
theorem C10_ys_sampling :
    ysList.length = 200 ∧
      ((ysList.length : ℚ) = (nRows : ℚ) * dxVal - dxVal) ∧
      (∀ i, i < 199 → ysList.getD (i + 1) 0 = ysList.getD i 0 + 1) ∧
      ysList.getD 0 0 = 0 ∧ ysList.getD 199 0 = 199 ∧
      ((199 : ℚ) < ((nRows : ℚ) - 1) * dxVal) ∧
      (1 ∈ ysList ∧ ∀ r, r < nRows → (1 : ℚ) ≠ (r : ℚ) * dxVal) := by
  refine ⟨by decide, by norm_num [ysList, nRows, dxVal], ?_, by decide,
    by decide, by norm_num [nRows, dxVal], by decide, ?_⟩
  · intro i hi
    simp [ysList, List.getD_eq_getElem?_getD, List.getElem?_range, hi,
      (by omega : i + 1 < 200), (by omega : i < 200)]
  · intro r hr
    have h5 : (r : ℚ) * dxVal = (5 * r : ℕ) := by
      push_cast [dxVal]; ring
    rw [h5]
    intro h
    have : (1 : ℕ) = 5 * r := by exact_mod_cast h
    omega

/-- Witness for C10: the unit-spacing property at sample index 7. -/
theorem C10_witness : ysList.getD 8 0 = ysList.getD 7 0 + 1 :=
  C10_ys_sampling.2.2.1 7 (by norm_num)

/-! ## C1: the finite-volume diffusion update -/

/-- C1: for every field, the (spec-modelled) diffusion stepper updates a
core node by `z_i + dt·(D/Δx²)·Σ_k (z_k − z_i)` where faces to closed
nodes contribute zero, and leaves every non-core node (in particular
every open/fixed-value boundary node) at its previous elevation. -/
theorem C1_diffusion_update (z : ElevField) (r c : ℕ) :
    (isCore r c = true →
      diffuseStep DVal dtVal dxVal z r c =
        z r c + dtVal * (DVal / dxVal ^ 2) * neighborStencil z r c) ∧
    (isCore r c = false → diffuseStep DVal dtVal dxVal z r c = z r c) := by
  constructor
  · intro h
    simp only [diffuseStep, h, if_true, netQ, faceQ, unitFlux,
      neighborStencil]
    split_ifs <;> norm_num [DVal, dtVal, dxVal] <;> ring
  · intro h
    simp [diffuseStep, h]

/-- Witness for C1: the stencil form of the update at the core node
(2,2) of a concrete field, and exclusion of the boundary node (0,2). -/
theorem C1_witness :
    diffuseStep DVal dtVal dxVal sampleField 2 2 =
      sampleField 2 2 +
        dtVal * (DVal / dxVal ^ 2) * neighborStencil sampleField 2 2 ∧
    diffuseStep DVal dtVal dxVal sampleField 0 2 = sampleField 0 2 :=
  ⟨(C1_diffusion_update sampleField 2 2).1 (by decide),
    (C1_diffusion_update sampleField 0 2).2 (by decide)⟩

/-! ## C6: boundary nodes are never modified -/

theorem fullStep_nonCore (Dc U dtc dx : ℚ) (z : ElevField) (r c : ℕ)
    (h : isCore r c = false) : fullStep Dc U dtc dx z r c = z r c := by
  simp [fullStep, diffuseStep, upliftStep, h]

/-- C6: uplift application and the diffusion step each leave every
non-core node unchanged; every open/fixed-value node is non-core; hence
across any number of loop iterations the boundary elevations keep their
initial (zero) value — only core-node elevations ever change. -/
theorem C6_boundary_nodes_never_change :
    (∀ (z : ElevField) (r c : ℕ), isCore r c = false →
      upliftStep upliftRateVal dtVal z r c = z r c ∧
        diffuseStep DVal dtVal dxVal z r c = z r c) ∧
    (∀ r c, isOpenNode r c = true → isCore r c = false) ∧
    (∀ (n r c : ℕ), isCore r c = false → runScen n r c = initField r c) := by
  refine ⟨?_, ?_, ?_⟩
  · intro z r c h
    exact ⟨by simp [upliftStep, h], by simp [diffuseStep, h]⟩
  · intro r c h
    rw [Bool.eq_false_iff]
    intro hc
    simp only [isOpenNode, isClosedNode, nRows, nCols, Bool.and_eq_true,
      Bool.or_eq_true, beq_iff_eq, Bool.not_eq_true', Bool.or_eq_false_iff,
      beq_eq_false_iff_ne, ne_eq] at h
    simp only [isCore, nRows, nCols, Bool.and_eq_true,
      decide_eq_true_eq] at hc
    omega
  · intro n r c h
    induction n with
    | zero => rfl
    | succ n ih =>
      calc runScen (n + 1) r c
          = fullStep DVal upliftRateVal dtVal dxVal (runScen n) r c := rfl
        _ = runScen n r c := fullStep_nonCore _ _ _ _ _ _ _ h
        _ = initField r c := ih

/-- Witness for C6: the south open-boundary node (0,2) still has its
initial elevation after two loop iterations. -/
theorem C6_witness : runScen 2 0 2 = initField 0 2 :=
  C6_boundary_nodes_never_change.2.2 2 0 2 (by decide)

/-! ## C7: a flat field with zero uplift stays flat -/

/-- C7: for any diffusivity D > 0 (indeed any parameters), a uniform
initial field with zero uplift rate is unchanged at every node after
every number of time steps. -/
theorem C7_flat_field_stays_flat (Dg dtg dxg c0 : ℚ) (hD : 0 < Dg) :
    ∀ (n r c : ℕ), runGen Dg 0 dtg dxg (fun _ _ => c0) n r c = c0 := by
  intro n
  induction n with
  | zero => intro r c; rfl
  | succ n ih =>
    intro r c
    show fullStep Dg 0 dtg dxg (runGen Dg 0 dtg dxg (fun _ _ => c0) n) r c
        = c0
    simp [fullStep, diffuseStep, upliftStep, netQ, faceQ, unitFlux, ih]

/-- Witness for C7: with D = 1, dt = 1, Δx = 1 and a flat field of
elevation 2, the elevation at node (5,3) is still 2 after three steps. -/
theorem C7_witness : runGen 1 0 1 1 (fun _ _ => 2) 3 5 3 = 2 :=
  C7_flat_field_stays_flat 1 1 1 2 (by norm_num) 3 5 3

/-! ## C3: per-node balance and global mass conservation -/

theorem isCore_mk (r c : ℕ) (h1 : 1 ≤ r) (h2 : r ≤ 39) (h3 : 1 ≤ c)
    (h4 : c ≤ 3) : isCore r c = true := by
  simp only [isCore, nRows, nCols, Bool.and_eq_true, decide_eq_true_eq]
  omega

theorem stepChange_core (z : ElevField) (r c : ℕ)
    (h : isCore r c = true) :
    scenStep z r c - z r c =
      upliftPerStepVal -
        dtVal * netQ DVal dxVal (upliftStep upliftRateVal dtVal z) r c /
          dxVal ^ 2 := by
  have h1 : scenStep z r c =
      upliftStep upliftRateVal dtVal z r c +
        dtVal *
          (-(netQ DVal dxVal (upliftStep upliftRateVal dtVal z) r c) /
            dxVal ^ 2) := by
    simp only [scenStep, fullStep, diffuseStep, h, if_true]
  have h2 : upliftStep upliftRateVal dtVal z r c =
      z r c + upliftRateVal * dtVal := by
    simp only [upliftStep, h, if_true]
  rw [h1, h2, upliftPerStepVal]
  ring

theorem netQ_row (w : ElevField) (m : ℕ) :
    netQ DVal dxVal w (m + 1) 1 + netQ DVal dxVal w (m + 1) 2 +
      netQ DVal dxVal w (m + 1) 3 =
    -DVal * ((w m 1 + w (m + 2) 1 - 2 * w (m + 1) 1) +
      (w m 2 + w (m + 2) 2 - 2 * w (m + 1) 2) +
      (w m 3 + w (m + 2) 3 - 2 * w (m + 1) 3)) := by
  simp only [netQ, faceQ, unitFlux, Nat.add_sub_cancel]
  norm_num [isClosedNode, nCols, DVal, dxVal]
  ring

theorem secondDiff_telescope (f : ℕ → ℚ) (n : ℕ) :
    ∑ m ∈ Finset.range n, (f m + f (m + 2) - 2 * f (m + 1)) =
      f 0 - f 1 + f (n + 1) - f n := by
  induction n with
  | zero => simp
  | succ n ih =>
    rw [Finset.sum_range_succ, ih]
    ring

/-- C3: (per node) in one loop iteration the elevation change of every
core node equals the uplift contribution `uplift_rate·dt` minus `dt`
times the net outgoing flux (computed on the post-uplift field, as the
diffuser sees it) divided by the cell area Δx²; (globally) the total
mass change over the core region equals the total uplift input minus
`dt` times the total flux exiting through the open boundaries. -/
theorem C3_mass_conservation :
    (∀ (z : ElevField) (r c : ℕ), isCore r c = true →
      scenStep z r c - z r c =
        upliftPerStepVal -
          dtVal * netQ DVal dxVal (upliftStep upliftRateVal dtVal z) r c /
            dxVal ^ 2) ∧
    (∀ z : ElevField,
      coreSum (fun r c => scenStep z r c - z r c) * dxVal ^ 2 =
        totalUpliftInput -
          dtVal *
            openExitFlux DVal dxVal (upliftStep upliftRateVal dtVal z)) := by
  constructor
  · exact stepChange_core
  · intro z
    set w : ElevField := upliftStep upliftRateVal dtVal z with hw
    have hsum : coreSum (fun r c => scenStep z r c - z r c) =
        ∑ m ∈ Finset.range 39,
          (3 * upliftPerStepVal +
            (dtVal * DVal / dxVal ^ 2) *
              ((w m 1 + w (m + 2) 1 - 2 * w (m + 1) 1) +
                (w m 2 + w (m + 2) 2 - 2 * w (m + 1) 2) +
                (w m 3 + w (m + 2) 3 - 2 * w (m + 1) 3))) := by
      unfold coreSum
      refine Finset.sum_congr rfl ?_
      intro m hm
      rw [Finset.mem_range] at hm
      have e1 := stepChange_core z (m + 1) 1
        (isCore_mk _ _ (by omega) (by omega) (by omega) (by omega))
      have e2 := stepChange_core z (m + 1) 2
        (isCore_mk _ _ (by omega) (by omega) (by omega) (by omega))
      have e3 := stepChange_core z (m + 1) 3
        (isCore_mk _ _ (by omega) (by omega) (by omega) (by omega))
      rw [← hw] at e1 e2 e3
      show scenStep z (m + 1) 1 - z (m + 1) 1 +
          (scenStep z (m + 1) 2 - z (m + 1) 2) +
          (scenStep z (m + 1) 3 - z (m + 1) 3) = _
      rw [e1, e2, e3]
      have hrow := netQ_row w m
      have hdx : dxVal ^ 2 ≠ 0 := by norm_num [dxVal]
      field_simp
      linear_combination (-dtVal) * hrow
    rw [hsum, Finset.sum_add_distrib, Finset.sum_const, Finset.card_range,
      ← Finset.mul_sum]
    have ht1 := secondDiff_telescope (fun r => w r 1) 39
    have ht2 := secondDiff_telescope (fun r => w r 2) 39
    have ht3 := secondDiff_telescope (fun r => w r 3) 39
    simp only at ht1 ht2 ht3
    have hsplit :
        (∑ m ∈ Finset.range 39,
          ((w m 1 + w (m + 2) 1 - 2 * w (m + 1) 1) +
            (w m 2 + w (m + 2) 2 - 2 * w (m + 1) 2) +
            (w m 3 + w (m + 2) 3 - 2 * w (m + 1) 3))) =
          (w 0 1 - w 1 1 + w 40 1 - w 39 1) +
            (w 0 2 - w 1 2 + w 40 2 - w 39 2) +
            (w 0 3 - w 1 3 + w 40 3 - w 39 3) := by
      rw [Finset.sum_add_distrib, Finset.sum_add_distrib, ht1, ht2, ht3]
    rw [hsplit]
    simp only [totalUpliftInput, openExitFlux, faceQ, unitFlux]
    norm_num [isClosedNode, nCols, DVal, dxVal]
    ring

/-- Witness for C3: the per-node balance at the core node (3,2) of a
concrete field. -/
theorem C3_witness :
    scenStep sampleField 3 2 - sampleField 3 2 =
      upliftPerStepVal -
        dtVal *
          netQ DVal dxVal (upliftStep upliftRateVal dtVal sampleField) 3 2 /
          dxVal ^ 2 :=
  C3_mass_conservation.1 sampleField 3 2 (by decide)

/-! ## C2: helper lemmas on column symmetry and the steady state -/

theorem isCore_true_iff (r c : ℕ) :
    isCore r c = true ↔ (1 ≤ r ∧ r ≤ 39 ∧ 1 ≤ c ∧ c ≤ 3) := by
  simp only [isCore, nRows, nCols, Bool.and_eq_true, decide_eq_true_eq]
  omega

theorem isCore_false_row (r c : ℕ) (h : ¬(1 ≤ r ∧ r ≤ 39)) :
    isCore r c = false := by
  rw [Bool.eq_false_iff]
  intro hh
  obtain ⟨h1, h2, -, -⟩ := (isCore_true_iff r c).mp hh
  exact h ⟨h1, h2⟩

theorem isCore_row0 (c : ℕ) : isCore 0 c = false :=
  isCore_false_row 0 c (by omega)

theorem isCore_row40 (c : ℕ) : isCore 40 c = false :=
  isCore_false_row 40 c (by omega)

theorem colSym_uplift (U dtc : ℚ) (z : ElevField) (hz : colSym z) :
    colSym (upliftStep U dtc z) := by
  intro r hr
  obtain ⟨h1, h3⟩ := hz r hr
  by_cases hc : 1 ≤ r ∧ r ≤ 39
  · constructor <;>
    · simp only [upliftStep,
        isCore_mk r 1 hc.1 hc.2 (by norm_num) (by norm_num),
        isCore_mk r 2 hc.1 hc.2 (by norm_num) (by norm_num),
        isCore_mk r 3 hc.1 hc.2 (by norm_num) (by norm_num)]
      simp [h1, h3]
  · constructor <;>
    · simp only [upliftStep, isCore_false_row r 1 hc,
        isCore_false_row r 2 hc, isCore_false_row r 3 hc]
      simp [h1, h3]

theorem netQ_cols_eq (w : ElevField) (hw : colSym w) (r : ℕ)
    (h1 : 1 ≤ r) (h2 : r ≤ 39) :
    netQ DVal dxVal w r 1 = netQ DVal dxVal w r 2 ∧
      netQ DVal dxVal w r 3 = netQ DVal dxVal w r 2 := by
  have ha := hw r (by unfold nRows; omega)
  have hb := hw (r - 1) (by unfold nRows; omega)
  have hc := hw (r + 1) (by unfold nRows; omega)
  obtain ⟨ha1, ha3⟩ := ha
  obtain ⟨hb1, hb3⟩ := hb
  obtain ⟨hc1, hc3⟩ := hc
  constructor <;>
  · simp only [netQ, faceQ, unitFlux]
    norm_num [isClosedNode, nCols]
    simp only [ha1, ha3, hb1, hb3, hc1, hc3]
    ring

theorem scenStep_core_formula (z : ElevField) (r c : ℕ)
    (h : isCore r c = true) :
    scenStep z r c =
      z r c + upliftPerStepVal -
        dtVal * netQ DVal dxVal (upliftStep upliftRateVal dtVal z) r c /
          dxVal ^ 2 := by
  have := stepChange_core z r c h
  linarith

theorem colSym_step (z : ElevField) (hz : colSym z) :
    colSym (scenStep z) := by
  intro r hr
  obtain ⟨h1, h3⟩ := hz r hr
  by_cases hc : 1 ≤ r ∧ r ≤ 39
  · have hc1 := isCore_mk r 1 hc.1 hc.2 (by norm_num) (by norm_num)
    have hc2 := isCore_mk r 2 hc.1 hc.2 (by norm_num) (by norm_num)
    have hc3' := isCore_mk r 3 hc.1 hc.2 (by norm_num) (by norm_num)
    have hwsym := colSym_uplift upliftRateVal dtVal z hz
    have hq := netQ_cols_eq (upliftStep upliftRateVal dtVal z) hwsym r
      hc.1 hc.2
    rw [scenStep_core_formula z r 1 hc1, scenStep_core_formula z r 2 hc2,
      scenStep_core_formula z r 3 hc3']
    rw [h1, h3, hq.1, hq.2]
    exact ⟨rfl, rfl⟩
  · have e1 : scenStep z r 1 = z r 1 :=
      fullStep_nonCore _ _ _ _ z r 1 (isCore_false_row r 1 hc)
    have e2 : scenStep z r 2 = z r 2 :=
      fullStep_nonCore _ _ _ _ z r 2 (isCore_false_row r 2 hc)
    have e3 : scenStep z r 3 = z r 3 :=
      fullStep_nonCore _ _ _ _ z r 3 (isCore_false_row r 3 hc)
    rw [e1, e2, e3]
    exact ⟨h1, h3⟩

theorem openRowsZero_step (z : ElevField) (hz : openRowsZero z) :
    openRowsZero (scenStep z) := by
  intro c h1 h3
  obtain ⟨hz0, hz40⟩ := hz c h1 h3
  constructor
  · rw [show scenStep z 0 c = z 0 c from
      fullStep_nonCore _ _ _ _ z 0 c (isCore_row0 c)]
    exact hz0
  · rw [show scenStep z 40 c = z 40 c from
      fullStep_nonCore _ _ _ _ z 40 c (isCore_row40 c)]
    exact hz40

theorem runScen_invariants (n : ℕ) :
    colSym (runScen n) ∧ openRowsZero (runScen n) := by
  induction n with
  | zero => exact ⟨fun r _ => ⟨rfl, rfl⟩, fun c _ _ => ⟨rfl, rfl⟩⟩
  | succ n ih =>
    exact ⟨colSym_step (runScen n) ih.1, openRowsZero_step (runScen n) ih.2⟩

theorem zsAnalytic_node (s : ℚ) :
    zsAnalytic (s * dxVal) = s * (40 - s) / 8 := by
  simp only [zsAnalytic, halfWidth, divideLoc, nRows, dxVal, upliftRateVal,
    DVal]
  push_cast
  ring

/-- C2: every field produced by the run is column-symmetric with its open
boundary rows pinned at zero; and any such field at which one full loop
iteration changes no core node (exact steady state) lies within
`uplift_per_step` (= 0.125 m, the natural tolerance ε of the scheme) of
the analytical profile `zs` at every node of the cross-section — core
nodes sit exactly one uplift increment below the parabola, open boundary
nodes match it exactly. -/
theorem C2_converged_field_matches_analytic_profile :
    (∀ n, colSym (runScen n) ∧ openRowsZero (runScen n)) ∧
    (∀ z : ElevField, colSym z → openRowsZero z → steadyOnCore z →
      ∀ r c, r < nRows → 1 ≤ c → c ≤ 3 →
        |z r c - zsAnalytic ((r : ℚ) * dxVal)| ≤ upliftPerStepVal ∧
        (isCore r c = true →
          z r c = zsAnalytic ((r : ℚ) * dxVal) - upliftPerStepVal) ∧
        (isCore r c = false → z r c = zsAnalytic ((r : ℚ) * dxVal))) := by
  refine ⟨runScen_invariants, ?_⟩
  intro z hsym hzero hsteady
  have hwsym : colSym (upliftStep upliftRateVal dtVal z) :=
    colSym_uplift upliftRateVal dtVal z hsym
  have hu : upliftRateVal * dtVal = 1 / 8 := by
    norm_num [upliftRateVal, dtVal, dxVal, DVal]
  have hups : upliftPerStepVal = 1 / 8 := by
    rw [upliftPerStepVal, hu]
  -- at every core row the diffuser must remove exactly the uplift:
  have key : ∀ s, 1 ≤ s → s ≤ 39 →
      netQ DVal dxVal (upliftStep upliftRateVal dtVal z) s 2 = 1 / 400 := by
    intro s h1 h2
    have hcore : isCore s 2 = true :=
      isCore_mk s 2 h1 h2 (by norm_num) (by norm_num)
    have hst := hsteady s (by unfold nRows; omega) 2
      (by unfold nCols; omega) hcore
    have hch := stepChange_core z s 2 hcore
    rw [hst, sub_self, hups] at hch
    set Q := netQ DVal dxVal (upliftStep upliftRateVal dtVal z) s 2 with hQ
    rw [show dtVal = 1250 from by norm_num [dtVal, dxVal, DVal],
      show dxVal ^ 2 = 25 from by norm_num [dxVal]] at hch
    linarith
  -- the post-uplift field on column 2:
  have hcw : ∀ s, 1 ≤ s → s ≤ 39 →
      upliftStep upliftRateVal dtVal z s 2 = z s 2 + 1 / 8 := by
    intro s h1 h2
    simp only [upliftStep,
      isCore_mk s 2 h1 h2 (by norm_num) (by norm_num), if_true, hu]
  have hw0 : upliftStep upliftRateVal dtVal z 0 2 = 0 := by
    simp only [upliftStep, isCore_row0 2, Bool.false_eq_true, if_false]
    exact (hzero 2 (by norm_num) (by norm_num)).1
  have hw40 : upliftStep upliftRateVal dtVal z 40 2 = 0 := by
    simp only [upliftStep, isCore_row40 2, Bool.false_eq_true, if_false]
    exact (hzero 2 (by norm_num) (by norm_num)).2
  -- second differences of the post-uplift field on column 2:
  have hsd : ∀ s, 1 ≤ s → s ≤ 39 →
      upliftStep upliftRateVal dtVal z (s + 1) 2 +
          upliftStep upliftRateVal dtVal z (s - 1) 2 -
          2 * upliftStep upliftRateVal dtVal z s 2 = -(1 / 4) := by
    intro s h1 h2
    have h12 := (hwsym s (by unfold nRows; omega)).1
    have h32 := (hwsym s (by unfold nRows; omega)).2
    have hq := key s h1 h2
    simp only [netQ, faceQ, unitFlux] at hq
    norm_num [isClosedNode, nCols, DVal, dxVal] at hq
    rw [h12, h32] at hq
    linarith
  -- the induced two-step recurrence on z along column 2:
  have recmid : ∀ m, m ≤ 36 →
      z (m + 3) 2 = 2 * z (m + 2) 2 - z (m + 1) 2 - 1 / 4 := by
    intro m hm
    have h := hsd (m + 2) (by omega) (by omega)
    rw [show m + 2 + 1 = m + 3 from rfl, show m + 2 - 1 = m + 1 from rfl]
      at h
    rw [hcw (m + 3) (by omega) (by omega), hcw (m + 1) (by omega)
      (by omega), hcw (m + 2) (by omega) (by omega)] at h
    linarith
  have e1 : z 2 2 = 2 * z 1 2 - 1 / 8 := by
    have h := hsd 1 (by omega) (by omega)
    rw [show (1 : ℕ) + 1 = 2 from rfl, show (1 : ℕ) - 1 = 0 from rfl] at h
    rw [hcw 2 (by omega) (by omega), hcw 1 (by omega) (by omega), hw0] at h
    linarith
  have e39 : z 38 2 = 2 * z 39 2 - 1 / 8 := by
    have h := hsd 39 (by omega) (by omega)
    rw [show (39 : ℕ) + 1 = 40 from rfl, show (39 : ℕ) - 1 = 38 from rfl]
      at h
    rw [hcw 38 (by omega) (by omega), hcw 39 (by omega) (by omega), hw40]
      at h
    linarith
  -- closed form of the recurrence:
  have cf : ∀ m, m ≤ 38 →
      z (m + 1) 2 = ((m : ℚ) + 1) * z 1 2 - (m : ℚ) ^ 2 / 8 := by
    intro m
    induction m using Nat.strong_induction_on with
    | _ m ih =>
      match m with
      | 0 => intro _; norm_num
      | 1 =>
        intro _
        rw [show (1 : ℕ) + 1 = 2 from rfl, e1]
        norm_num
      | (k + 2) =>
        intro hk
        have h1 := ih (k + 1) (by omega) (by omega)
        have h0 := ih k (by omega) (by omega)
        have hr := recmid k (by omega)
        rw [show k + 1 + 1 = k + 2 from rfl] at h1
        rw [show k + 2 + 1 = k + 3 from rfl]
        rw [hr, h1, h0]
        push_cast
        ring
  -- the r = 39 relation pins down z at row 1:
  have f1 : z 1 2 = 19 / 4 := by
    have h38 := cf 37 (by norm_num)
    have h39 := cf 38 (by norm_num)
    rw [show (37 : ℕ) + 1 = 38 from rfl] at h38
    rw [show (38 : ℕ) + 1 = 39 from rfl] at h39
    rw [h38, h39] at e39
    push_cast at e39
    linarith
  -- the exact core values along column 2:
  have hall : ∀ s, 1 ≤ s → s ≤ 39 →
      z s 2 = (s : ℚ) * (40 - (s : ℚ)) / 8 - 1 / 8 := by
    intro s h1 h2
    obtain ⟨m, rfl⟩ : ∃ m, s = m + 1 := ⟨s - 1, by omega⟩
    rw [cf m (by omega), f1]
    push_cast
    ring
  -- conclude at every cross-section node:
  intro r c hr hc1 hc3
  have hcz : z r c = z r 2 := by
    interval_cases c
    · exact (hsym r hr).1
    · rfl
    · exact (hsym r hr).2
  by_cases h0 : r = 0
  · subst h0
    have hz0 : z 0 c = 0 := (hzero c hc1 hc3).1
    have hzs : zsAnalytic ((0 : ℕ) * dxVal) = 0 := by
      push_cast
      rw [zsAnalytic_node]
      norm_num
    refine ⟨?_, ?_, ?_⟩
    · rw [hz0, hzs, hups]; norm_num
    · intro habs; rw [isCore_row0 c] at habs; exact absurd habs (by simp)
    · intro _; rw [hz0, hzs]
  by_cases h40 : r = 40
  · subst h40
    have hz40 : z 40 c = 0 := (hzero c hc1 hc3).2
    have hzs : zsAnalytic ((40 : ℕ) * dxVal) = 0 := by
      push_cast
      rw [zsAnalytic_node]
      norm_num
    refine ⟨?_, ?_, ?_⟩
    · rw [hz40, hzs, hups]; norm_num
    · intro habs; rw [isCore_row40 c] at habs; exact absurd habs (by simp)
    · intro _; rw [hz40, hzs]
  have hrb : 1 ≤ r ∧ r ≤ 39 := by
    unfold nRows at hr
    omega
  have hcore : isCore r c = true := isCore_mk r c hrb.1 hrb.2 hc1 hc3
  have hval : z r c = zsAnalytic ((r : ℚ) * dxVal) - upliftPerStepVal := by
    rw [hcz, hall r hrb.1 hrb.2, zsAnalytic_node, hups]
  refine ⟨?_, fun _ => hval, ?_⟩
  · rw [hval]
    simp only [sub_sub_cancel_left, abs_neg]
    rw [abs_of_nonneg (by rw [hups]; norm_num)]
  · intro habs
    rw [hcore] at habs
    exact absurd habs (by simp)

/-! ## The explicit steady state satisfies the convergence hypotheses -/

theorem spf_core_eval (r c : ℕ) (h1 : 1 ≤ r) (h2 : r ≤ 39) (h3 : 1 ≤ c)
    (h4 : c ≤ 3) :
    steadyProfileField r c = ((r : ℚ) * (40 - (r : ℚ)) - 1) / 8 := by
  have hg : (1 ≤ c && c ≤ 3 && 1 ≤ r && r ≤ 39) = true := by
    simp only [Bool.and_eq_true, decide_eq_true_eq]
    omega
  unfold steadyProfileField
  rw [hg]
  simp

theorem spf_row0 (c : ℕ) : steadyProfileField 0 c = 0 := by
  unfold steadyProfileField
  simp

theorem spf_row40 (c : ℕ) : steadyProfileField 40 c = 0 := by
  unfold steadyProfileField
  simp

theorem spf_colSym : colSym steadyProfileField := by
  intro r hr
  constructor <;> (unfold steadyProfileField; norm_num)

theorem spf_openRowsZero : openRowsZero steadyProfileField := by
  intro c h1 h3
  exact ⟨spf_row0 c, spf_row40 c⟩

theorem wspf_core (r c : ℕ) (h1 : 1 ≤ r) (h2 : r ≤ 39) (h3 : 1 ≤ c)
    (h4 : c ≤ 3) :
    upliftStep upliftRateVal dtVal steadyProfileField r c =
      ((r : ℚ) * (40 - (r : ℚ)) - 1) / 8 + 1 / 8 := by
  simp only [upliftStep, isCore_mk r c h1 h2 h3 h4, if_true]
  rw [spf_core_eval r c h1 h2 h3 h4,
    show upliftRateVal * dtVal = 1 / 8 from by
      norm_num [upliftRateVal, dtVal, dxVal, DVal]]

theorem wspf_row0 (c : ℕ) :
    upliftStep upliftRateVal dtVal steadyProfileField 0 c = 0 := by
  simp only [upliftStep, isCore_row0 c, Bool.false_eq_true, if_false]
  exact spf_row0 c

theorem wspf_row40 (c : ℕ) :
    upliftStep upliftRateVal dtVal steadyProfileField 40 c = 0 := by
  simp only [upliftStep, isCore_row40 c, Bool.false_eq_true, if_false]
  exact spf_row40 c

theorem netQ_col2 (w : ElevField) (r : ℕ) (h12 : w r 1 = w r 2)
    (h32 : w r 3 = w r 2) :
    netQ DVal dxVal w r 2 =
      -DVal * (w (r + 1) 2 + w (r - 1) 2 - 2 * w r 2) := by
  simp only [netQ, faceQ, unitFlux]
  norm_num [isClosedNode, nCols, dxVal]
  rw [h12, h32]
  ring

theorem spf_steadyOnCore : steadyOnCore steadyProfileField := by
  intro r hr c hc hcore
  obtain ⟨h1, h2, h3, h4⟩ := (isCore_true_iff r c).mp hcore
  have hsps : colSym (scenStep steadyProfileField) :=
    colSym_step _ spf_colSym
  have hred1 : scenStep steadyProfileField r c =
      scenStep steadyProfileField r 2 := by
    interval_cases c
    exacts [(hsps r hr).1, rfl, (hsps r hr).2]
  have hred2 : steadyProfileField r c = steadyProfileField r 2 := by
    interval_cases c
    exacts [(spf_colSym r hr).1, rfl, (spf_colSym r hr).2]
  rw [hred1, hred2]
  have hcore2 : isCore r 2 = true :=
    isCore_mk r 2 h1 h2 (by norm_num) (by norm_num)
  rw [scenStep_core_formula steadyProfileField r 2 hcore2]
  have hwsym : colSym (upliftStep upliftRateVal dtVal steadyProfileField) :=
    colSym_uplift _ _ _ spf_colSym
  have hq0 := netQ_col2 (upliftStep upliftRateVal dtVal steadyProfileField)
    r (hwsym r hr).1 (hwsym r hr).2
  have hq : netQ DVal dxVal
      (upliftStep upliftRateVal dtVal steadyProfileField) r 2 = 1 / 400 := by
    by_cases hr1 : r = 1
    · subst hr1
      rw [show (1 : ℕ) + 1 = 2 from rfl, show (1 : ℕ) - 1 = 0 from rfl]
        at hq0
      rw [wspf_core 2 2 (by omega) (by omega) (by omega) (by omega),
        wspf_core 1 2 (by omega) (by omega) (by omega) (by omega),
        wspf_row0 2] at hq0
      rw [hq0]
      norm_num [DVal]
    by_cases hr39 : r = 39
    · subst hr39
      rw [show (39 : ℕ) + 1 = 40 from rfl,
        show (39 : ℕ) - 1 = 38 from rfl] at hq0
      rw [wspf_core 38 2 (by omega) (by omega) (by omega) (by omega),
        wspf_core 39 2 (by omega) (by omega) (by omega) (by omega),
        wspf_row40 2] at hq0
      rw [hq0]
      norm_num [DVal]
    · obtain ⟨m, rfl⟩ : ∃ m, r = m + 2 := ⟨r - 2, by omega⟩
      rw [show m + 2 + 1 = m + 3 from rfl,
        show m + 2 - 1 = m + 1 from rfl] at hq0
      rw [wspf_core (m + 3) 2 (by omega) (by omega) (by omega) (by omega),
        wspf_core (m + 1) 2 (by omega) (by omega) (by omega) (by omega),
        wspf_core (m + 2) 2 (by omega) (by omega) (by omega) (by omega)]
        at hq0
      rw [hq0, DVal]
      push_cast
      ring_nf
  rw [hq, spf_core_eval r 2 h1 h2 (by norm_num) (by norm_num),
    show upliftPerStepVal = 1 / 8 from by
      norm_num [upliftPerStepVal, upliftRateVal, dtVal, dxVal, DVal]]
  norm_num [dtVal, dxVal, DVal]

/-- Witness for C2: the explicit steady profile field satisfies all three
hypotheses (column symmetry, zero open rows, exact steady state), and at
the divide node (20,2) it lies within `uplift_per_step` of the analytic
profile. -/
theorem C2_witness :
    |steadyProfileField 20 2 - zsAnalytic ((20 : ℚ) * dxVal)| ≤
      upliftPerStepVal :=
  ((C2_converged_field_matches_analytic_profile.2 steadyProfileField
    spf_colSym spf_openRowsZero spf_steadyOnCore 20 2 (by decide)
    (by decide) (by decide)).1)
